import Mathlib

/-!
Shallow embedding of the free-function facade of the itertools excerpt
(`src/free.rs`) over `List`.  Sequences are modelled as finite lists, and each
lazy adaptor is modelled by the list of elements it emits when fully driven.
The forwarding free functions in `free.rs` add no logic of their own; the
concrete adaptor implementations (`Merge`, `KMerge`, `Interleave`) and the
`Itertools` trait methods (`join`, `sorted`) live outside the excerpt, so they
are modelled from the specification's algorithm descriptions (§4.1–§4.4),
while `all`/`any`/`max`/`min`/`enumerate` follow the standard iterator
semantics they forward to.
-/

namespace Itertools

/-- Modelled from the spec: the Two-Way Merge pending-slot loop of §4.1
(the `Merge` adaptor behind `merge` in free.rs, not part of this excerpt),
over an explicit comparison `le`.  When both pending slots are populated, the
head whose key is not greater is emitted — ties prefer the left input — and
when one source is exhausted the other slot is drained. -/
def mergeBy {α : Type*} (le : α → α → Bool) : List α → List α → List α
  | [], ys => ys
  | xs, [] => xs
  | x :: xs, y :: ys =>
      if le x y then x :: mergeBy le xs (y :: ys)
      else y :: mergeBy le (x :: xs) ys

/-- Modelled from the spec: `merge` (free.rs lines 196–202) merges two
individually sorted sequences under the element type's order. -/
def merge {α : Type*} [LinearOrder α] (xs ys : List α) : List α :=
  mergeBy (fun a b => decide (a ≤ b)) xs ys

theorem mergeBy_nil_left {α : Type*} (le : α → α → Bool) (ys : List α) :
    mergeBy le [] ys = ys := by
  simp [mergeBy]

theorem mergeBy_nil_right {α : Type*} (le : α → α → Bool) (xs : List α) :
    mergeBy le xs [] = xs := by
  cases xs <;> simp [mergeBy]

theorem mergeBy_cons_pos {α : Type*} (le : α → α → Bool) (x y : α)
    (xs ys : List α) (h : le x y = true) :
    mergeBy le (x :: xs) (y :: ys) = x :: mergeBy le xs (y :: ys) := by
  simp [mergeBy, h]

theorem mergeBy_cons_neg {α : Type*} (le : α → α → Bool) (x y : α)
    (xs ys : List α) (h : ¬ le x y = true) :
    mergeBy le (x :: xs) (y :: ys) = y :: mergeBy le (x :: xs) ys := by
  simp [mergeBy, h]

theorem mergeBy_perm {α : Type*} (le : α → α → Bool) (xs ys : List α) :
    (mergeBy le xs ys).Perm (xs ++ ys) := by
  induction xs, ys using mergeBy.induct le with
  | case1 ys => simp [mergeBy_nil_left]
  | case2 xs h => simp [mergeBy_nil_right]
  | case3 x xs y ys hle ih =>
      rw [mergeBy_cons_pos le x y xs ys hle]
      exact ih.cons x
  | case4 x xs y ys hle ih =>
      rw [mergeBy_cons_neg le x y xs ys hle]
      exact (ih.cons y).trans List.perm_middle.symm

theorem mergeBy_coe_multiset {α : Type*} (le : α → α → Bool) (xs ys : List α) :
    (mergeBy le xs ys : Multiset α) = (xs : Multiset α) + (ys : Multiset α) := by
  rw [Multiset.coe_add]
  exact Multiset.coe_eq_coe.2 (mergeBy_perm le xs ys)

theorem mergeBy_mem {α : Type*} (le : α → α → Bool) (xs ys : List α) (a : α) :
    a ∈ mergeBy le xs ys ↔ a ∈ xs ∨ a ∈ ys := by
  rw [(mergeBy_perm le xs ys).mem_iff, List.mem_append]

theorem mergeBy_sorted {α : Type*} [LinearOrder α] (le : α → α → Bool)
    (hpos : ∀ a b, le a b = true → a ≤ b)
    (hneg : ∀ a b, ¬ le a b = true → b ≤ a) (xs ys : List α)
    (hx : xs.Sorted (· ≤ ·)) (hy : ys.Sorted (· ≤ ·)) :
    (mergeBy le xs ys).Sorted (· ≤ ·) := by
  revert hx hy
  induction xs, ys using mergeBy.induct le with
  | case1 ys => intro _ hy; rwa [mergeBy_nil_left]
  | case2 xs h => intro hx _; rwa [mergeBy_nil_right]
  | case3 x xs y ys hle ih =>
      intro hx hy
      rw [mergeBy_cons_pos le x y xs ys hle]
      have hxy : x ≤ y := hpos x y hle
      rw [List.sorted_cons] at hx ⊢
      refine ⟨fun b hb => ?_, ih hx.2 hy⟩
      rcases (mergeBy_mem le xs (y :: ys) b).1 hb with hbx | hby
      · exact hx.1 b hbx
      · rcases List.mem_cons.1 hby with rfl | hbys
        · exact hxy
        · exact hxy.trans ((List.sorted_cons.1 hy).1 b hbys)
  | case4 x xs y ys hle ih =>
      intro hx hy
      rw [mergeBy_cons_neg le x y xs ys hle]
      have hyx : y ≤ x := hneg x y hle
      rw [List.sorted_cons] at hy ⊢
      refine ⟨fun b hb => ?_, ih hx hy.2⟩
      rcases (mergeBy_mem le (x :: xs) ys b).1 hb with hbx | hby
      · rcases List.mem_cons.1 hbx with rfl | hbxs
        · exact hyx
        · exact hyx.trans ((List.sorted_cons.1 hx).1 b hbxs)
      · exact hy.1 b hby

theorem merge_sorted {α : Type*} [LinearOrder α] (xs ys : List α)
    (hx : xs.Sorted (· ≤ ·)) (hy : ys.Sorted (· ≤ ·)) :
    (merge xs ys).Sorted (· ≤ ·) :=
  mergeBy_sorted _ (fun _ _ h => of_decide_eq_true h)
    (fun _ _ h => le_of_not_le (fun h2 => h (decide_eq_true h2))) xs ys hx hy

/-- C1: for sorted inputs, `merge` produces a sorted output whose multiset of
elements is the multiset union of the inputs' elements and whose length is
the sum of the input lengths; in particular
`merge [1,3,5] [2,3,4] = [1,2,3,3,4,5]`. -/
theorem merge_correct {α : Type*} [LinearOrder α] (xs ys : List α)
    (hx : xs.Sorted (· ≤ ·)) (hy : ys.Sorted (· ≤ ·)) :
    (merge xs ys).Sorted (· ≤ ·) ∧
      (merge xs ys : Multiset α) = (xs : Multiset α) + (ys : Multiset α) ∧
      (merge xs ys).length = xs.length + ys.length ∧
      merge [1, 3, 5] [2, 3, 4] = ([1, 2, 3, 3, 4, 5] : List Nat) := by
  refine ⟨merge_sorted xs ys hx hy, mergeBy_coe_multiset _ xs ys, ?_, ?_⟩
  · simpa using (mergeBy_perm (fun a b => decide (a ≤ b)) xs ys).length_eq
  · simp +decide [merge, mergeBy]

/-- C1 witness at a concrete sorted input pair. -/
theorem merge_correct_witness :
    (merge [0, 2] [1, 3]).Sorted (· ≤ ·) ∧
      (merge [0, 2] [1, 3] : Multiset Nat) = ([0, 2] : List Nat) + ([1, 3] : List Nat) ∧
      (merge [0, 2] [1, 3]).length = ([0, 2] : List Nat).length + ([1, 3] : List Nat).length ∧
      merge [1, 3, 5] [2, 3, 4] = ([1, 2, 3, 3, 4, 5] : List Nat) :=
  merge_correct [0, 2] [1, 3] (by decide) (by decide)

/-- C5: merge is stable — at a comparison point where the two pending
elements' keys compare equal, the element from the left/first input is
emitted before the element from the second input. -/
theorem merge_stable {α β : Type*} [LinearOrder β] (key : α → β) (x y : α)
    (xs ys : List α) (h : key x = key y) :
    mergeBy (fun a b => decide (key a ≤ key b)) (x :: xs) (y :: ys) =
      x :: mergeBy (fun a b => decide (key a ≤ key b)) xs (y :: ys) :=
  mergeBy_cons_pos _ x y xs ys (decide_eq_true (le_of_eq h))

/-- C5 witness: two distinct elements with equal keys; the left one leads. -/
theorem merge_stable_witness :
    mergeBy (fun a b : Nat × Nat => decide (a.1 ≤ b.1)) [(1, 10)] [(1, 20)] =
      (1, 10) :: mergeBy (fun a b : Nat × Nat => decide (a.1 ≤ b.1)) [] [(1, 20)] :=
  merge_stable Prod.fst (1, 10) (1, 20) [] [] rfl

/-- Modelled from the spec: the Interleave adaptor of §4.3 (behind
`interleave` in free.rs, not part of this excerpt): strictly alternate one
element from each input, A first, and stop emitting as soon as either input
is exhausted — the remainder of the longer input is not drained. -/
def interleave {α : Type*} : List α → List α → List α
  | [], _ => []
  | _ :: _, [] => []
  | x :: xs, y :: ys => x :: y :: interleave xs ys

theorem interleave_length {α : Type*} : ∀ xs ys : List α,
    (interleave xs ys).length = 2 * min xs.length ys.length
  | [], ys => by simp [interleave]
  | x :: xs, [] => by simp [interleave]
  | x :: xs, y :: ys => by
      have ih := interleave_length xs ys
      simp only [interleave, List.length_cons]
      omega

theorem interleave_getElem_even {α : Type*} : ∀ (xs ys : List α),
    xs.length = ys.length → ∀ i, (interleave xs ys)[2 * i]? = xs[i]?
  | [], ys, h, i => by simp [interleave]
  | x :: xs, [], h, i => by simp at h
  | x :: xs, y :: ys, h, i => by
      cases i with
      | zero => simp [interleave]
      | succ n =>
          have ih := interleave_getElem_even xs ys (by simpa using h) n
          have h2 : 2 * (n + 1) = 2 * n + 1 + 1 := by ring
          rw [h2]
          simpa [interleave] using ih

theorem interleave_getElem_odd {α : Type*} : ∀ (xs ys : List α),
    xs.length = ys.length → ∀ i, (interleave xs ys)[2 * i + 1]? = ys[i]?
  | [], ys, h, i => by
      obtain rfl : ys = [] := List.eq_nil_of_length_eq_zero h.symm
      simp [interleave]
  | x :: xs, [], h, i => by simp at h
  | x :: xs, y :: ys, h, i => by
      cases i with
      | zero => simp [interleave]
      | succ n =>
          have ih := interleave_getElem_odd xs ys (by simpa using h) n
          have h2 : 2 * (n + 1) + 1 = 2 * n + 1 + 1 + 1 := by ring
          rw [h2]
          simpa [interleave] using ih

/-- C3: on inputs of unequal length, interleave stops at the shorter input —
once one side is exhausted nothing further is emitted, the longer side is not
drained — so the output length is `2 * min (len A) (len B)`. -/
theorem interleave_stops_at_shorter {α : Type*} (xs ys : List α)
    (h : xs.length ≠ ys.length) :
    (interleave xs ys).length = 2 * min xs.length ys.length ∧
      interleave xs [] = [] ∧ interleave ([] : List α) ys = [] := by
  refine ⟨interleave_length xs ys, ?_, ?_⟩
  · cases xs <;> simp [interleave]
  · simp [interleave]

/-- C3 witness: `interleave [1,2] [1]` has length `2 = 2 * min 2 1`. -/
theorem interleave_stops_at_shorter_witness :
    (interleave [1, 2] [1]).length = 2 * min ([1, 2] : List Nat).length ([1] : List Nat).length ∧
      interleave [1, 2] [] = [] ∧ interleave ([] : List Nat) [1] = [] :=
  interleave_stops_at_shorter [1, 2] [1] (by decide)

/-- C4: on inputs of equal length `N`, interleave yields exactly `2 * N`
elements, strictly alternating — position `2*i` holds A's `i`-th element and
position `2*i+1` holds B's `i`-th element; in particular
`interleave [1,2,3] [2,3,4] = [1,2,2,3,3,4]`. -/
theorem interleave_alternates {α : Type*} (xs ys : List α) (i : Nat)
    (h : xs.length = ys.length) :
    (interleave xs ys).length = 2 * xs.length ∧
      (interleave xs ys)[2 * i]? = xs[i]? ∧
      (interleave xs ys)[2 * i + 1]? = ys[i]? ∧
      interleave [1, 2, 3] [2, 3, 4] = ([1, 2, 2, 3, 3, 4] : List Nat) := by
  refine ⟨?_, interleave_getElem_even xs ys h i, interleave_getElem_odd xs ys h i, by decide⟩
  rw [interleave_length xs ys, h, min_self]

/-- C4 witness at equal-length concrete inputs. -/
theorem interleave_alternates_witness :
    (interleave [1, 2, 3] [2, 3, 4]).length = 2 * ([1, 2, 3] : List Nat).length ∧
      (interleave [1, 2, 3] [2, 3, 4])[2 * 1]? = ([1, 2, 3] : List Nat)[1]? ∧
      (interleave [1, 2, 3] [2, 3, 4])[2 * 1 + 1]? = ([2, 3, 4] : List Nat)[1]? ∧
      interleave [1, 2, 3] [2, 3, 4] = ([1, 2, 2, 3, 3, 4] : List Nat) :=
  interleave_alternates [1, 2, 3] [2, 3, 4] 1 rfl

/-- Modelled from the spec: one step of the K-Way Merge of §4.2 (the `KMerge`
adaptor behind `kmerge` in free.rs, not part of this excerpt): among the
sources whose pending slot is populated, extract the minimum-keyed element —
ties resolved by source index, the earlier source first — returning it with
the remaining state; an empty source is never inserted into the priority
structure. -/
def kstep {α : Type*} [LinearOrder α] : List (List α) → Option (α × List (List α))
  | [] => none
  | [] :: rest => kstep rest
  | (x :: xs) :: rest =>
      match kstep rest with
      | none => some (x, xs :: rest)
      | some (y, rest') =>
          if x ≤ y then some (x, xs :: rest)
          else some (y, (x :: xs) :: rest')

/-- Modelled from the spec: drive the K-Way Merge step by step until the
priority structure is empty; the fuel argument bounds the number of emitted
elements and is instantiated with the total number of pending elements,
which suffices. -/
def kmergeAux {α : Type*} [LinearOrder α] : Nat → List (List α) → List α
  | 0, _ => []
  | fuel + 1, ls =>
      match kstep ls with
      | none => []
      | some (a, ls') => a :: kmergeAux fuel ls'

/-- Modelled from the spec: `kmerge` (free.rs lines 215–221) merges a
collection of individually sorted sequences into one sorted sequence. -/
def kmerge {α : Type*} [LinearOrder α] (ls : List (List α)) : List α :=
  kmergeAux ls.flatten.length ls

theorem kstep_nil_cons {α : Type*} [LinearOrder α] (rest : List (List α)) :
    kstep ([] :: rest) = kstep rest := by
  simp [kstep]

theorem kstep_cons_none {α : Type*} [LinearOrder α] (x : α) (xs : List α)
    (rest : List (List α)) (h : kstep rest = none) :
    kstep ((x :: xs) :: rest) = some (x, xs :: rest) := by
  simp [kstep, h]

theorem kstep_cons_some_pos {α : Type*} [LinearOrder α] (x y : α) (xs : List α)
    (rest rest' : List (List α)) (h : kstep rest = some (y, rest'))
    (hxy : x ≤ y) : kstep ((x :: xs) :: rest) = some (x, xs :: rest) := by
  simp [kstep, h, hxy]

theorem kstep_cons_some_neg {α : Type*} [LinearOrder α] (x y : α) (xs : List α)
    (rest rest' : List (List α)) (h : kstep rest = some (y, rest'))
    (hxy : ¬ x ≤ y) : kstep ((x :: xs) :: rest) = some (y, (x :: xs) :: rest') := by
  simp [kstep, h, hxy]

theorem kstep_none {α : Type*} [LinearOrder α] : ∀ ls : List (List α),
    kstep ls = none → ls.flatten = []
  | [], _ => rfl
  | [] :: rest, h => by
      rw [kstep_nil_cons rest] at h
      simpa using kstep_none rest h
  | (x :: xs) :: rest, h => by
      exfalso
      rcases hr : kstep rest with _ | ⟨y, rest'⟩
      · rw [kstep_cons_none x xs rest hr] at h
        exact Option.noConfusion h
      · by_cases hxy : x ≤ y
        · rw [kstep_cons_some_pos x y xs rest rest' hr hxy] at h
          exact Option.noConfusion h
        · rw [kstep_cons_some_neg x y xs rest rest' hr hxy] at h
          exact Option.noConfusion h

theorem kstep_some_flatten {α : Type*} [LinearOrder α] : ∀ (ls : List (List α))
    (a : α) (ls' : List (List α)), kstep ls = some (a, ls') →
    (ls.flatten : Multiset α) = a ::ₘ (ls'.flatten : Multiset α)
  | [], a, ls', h => by simp [kstep] at h
  | [] :: rest, a, ls', h => by
      rw [kstep_nil_cons rest] at h
      simpa using kstep_some_flatten rest a ls' h
  | (x :: xs) :: rest, a, ls', h => by
      rcases hr : kstep rest with _ | ⟨y, rest'⟩
      · rw [kstep_cons_none x xs rest hr] at h
        simp only [Option.some.injEq, Prod.mk.injEq] at h
        obtain ⟨rfl, rfl⟩ := h
        rw [List.flatten_cons, List.flatten_cons, ← Multiset.coe_add,
          ← Multiset.coe_add]
        exact (Multiset.cons_coe x xs ▸ (Multiset.cons_add x (xs : Multiset α)
          (rest.flatten : Multiset α)).symm)
      · have ihr := kstep_some_flatten rest y rest' hr
        by_cases hxy : x ≤ y
        · rw [kstep_cons_some_pos x y xs rest rest' hr hxy] at h
          simp only [Option.some.injEq, Prod.mk.injEq] at h
          obtain ⟨rfl, rfl⟩ := h
          rw [List.flatten_cons, List.flatten_cons, ← Multiset.coe_add,
            ← Multiset.coe_add]
          exact (Multiset.cons_coe x xs ▸ (Multiset.cons_add x (xs : Multiset α)
            (rest.flatten : Multiset α)).symm)
        · rw [kstep_cons_some_neg x y xs rest rest' hr hxy] at h
          simp only [Option.some.injEq, Prod.mk.injEq] at h
          obtain ⟨rfl, rfl⟩ := h
          rw [List.flatten_cons, List.flatten_cons, ← Multiset.coe_add,
            ← Multiset.coe_add, ihr, Multiset.add_cons]

theorem kstep_min {α : Type*} [LinearOrder α] : ∀ (ls : List (List α)) (a : α)
    (ls' : List (List α)), (∀ l ∈ ls, l.Sorted (· ≤ ·)) →
    kstep ls = some (a, ls') →
    (∀ l ∈ ls', l.Sorted (· ≤ ·)) ∧ (∀ b ∈ ls'.flatten, a ≤ b)
  | [], a, ls', _, h => by simp [kstep] at h
  | [] :: rest, a, ls', hs, h => by
      rw [kstep_nil_cons rest] at h
      exact kstep_min rest a ls'
        (fun l hl => hs l (List.mem_cons_of_mem _ hl)) h
  | (x :: xs) :: rest, a, ls', hs, h => by
      have hxxs : (x :: xs).Sorted (· ≤ ·) := hs _ (List.mem_cons_self _ _)
      have hxs := (List.sorted_cons.1 hxxs).2
      have hxhead := (List.sorted_cons.1 hxxs).1
      have hrest : ∀ l ∈ rest, l.Sorted (· ≤ ·) :=
        fun l hl => hs l (List.mem_cons_of_mem _ hl)
      rcases hr : kstep rest with _ | ⟨y, rest'⟩
      · rw [kstep_cons_none x xs rest hr] at h
        simp only [Option.some.injEq, Prod.mk.injEq] at h
        obtain ⟨rfl, rfl⟩ := h
        refine ⟨?_, ?_⟩
        · intro l hl
          rcases List.mem_cons.1 hl with rfl | hl2
          · exact hxs
          · exact hrest l hl2
        · intro b hb
          rw [List.flatten_cons, kstep_none rest hr, List.append_nil] at hb
          exact hxhead b hb
      · have ih := kstep_min rest y rest' hrest hr
        have hflat := kstep_some_flatten rest y rest' hr
        by_cases hxy : x ≤ y
        · rw [kstep_cons_some_pos x y xs rest rest' hr hxy] at h
          simp only [Option.some.injEq, Prod.mk.injEq] at h
          obtain ⟨rfl, rfl⟩ := h
          refine ⟨?_, ?_⟩
          · intro l hl
            rcases List.mem_cons.1 hl with rfl | hl2
            · exact hxs
            · exact hrest l hl2
          · intro b hb
            rw [List.flatten_cons, List.mem_append] at hb
            rcases hb with hb | hb
            · exact hxhead b hb
            · have : b ∈ (rest.flatten : Multiset α) := Multiset.mem_coe.2 hb
              rw [hflat, Multiset.mem_cons] at this
              rcases this with rfl | hb2
              · exact hxy
              · exact hxy.trans (ih.2 b (Multiset.mem_coe.1 hb2))
        · rw [kstep_cons_some_neg x y xs rest rest' hr hxy] at h
          simp only [Option.some.injEq, Prod.mk.injEq] at h
          obtain ⟨rfl, rfl⟩ := h
          have hyx : y ≤ x := le_of_not_le hxy
          refine ⟨?_, ?_⟩
          · intro l hl
            rcases List.mem_cons.1 hl with rfl | hl2
            · exact hxxs
            · exact ih.1 l hl2
          · intro b hb
            rw [List.flatten_cons, List.mem_append] at hb
            rcases hb with hb | hb
            · rcases List.mem_cons.1 hb with rfl | hb2
              · exact hyx
              · exact hyx.trans (hxhead b hb2)
            · exact ih.2 b hb

theorem kmergeAux_coe {α : Type*} [LinearOrder α] : ∀ (fuel : Nat)
    (ls : List (List α)), ls.flatten.length ≤ fuel →
    (kmergeAux fuel ls : Multiset α) = (ls.flatten : Multiset α)
  | 0, ls, h => by
      have h0 : ls.flatten = [] := List.eq_nil_of_length_eq_zero (Nat.le_zero.1 h)
      simp [kmergeAux, h0]
  | fuel + 1, ls, h => by
      rcases hk : kstep ls with _ | ⟨a, ls'⟩
      · rw [kstep_none ls hk]
        simp [kmergeAux, hk]
      · have hflat := kstep_some_flatten ls a ls' hk
        have hlen : ls'.flatten.length ≤ fuel := by
          have hcard := congrArg Multiset.card hflat
          rw [Multiset.coe_card, Multiset.card_cons, Multiset.coe_card] at hcard
          omega
        have ih := kmergeAux_coe fuel ls' hlen
        show ((kmergeAux (fuel + 1) ls : List α) : Multiset α) = _
        rw [show kmergeAux (fuel + 1) ls = a :: kmergeAux fuel ls' by
          simp [kmergeAux, hk]]
        rw [← Multiset.cons_coe, ih, hflat]

theorem kmergeAux_sorted {α : Type*} [LinearOrder α] : ∀ (fuel : Nat)
    (ls : List (List α)), ls.flatten.length ≤ fuel →
    (∀ l ∈ ls, l.Sorted (· ≤ ·)) → (kmergeAux fuel ls).Sorted (· ≤ ·)
  | 0, ls, _, _ => by simp [kmergeAux]
  | fuel + 1, ls, h, hs => by
      rcases hk : kstep ls with _ | ⟨a, ls'⟩
      · simp [kmergeAux, hk]
      · have hmin := kstep_min ls a ls' hs hk
        have hflat := kstep_some_flatten ls a ls' hk
        have hlen : ls'.flatten.length ≤ fuel := by
          have hcard := congrArg Multiset.card hflat
          rw [Multiset.coe_card, Multiset.card_cons, Multiset.coe_card] at hcard
          omega
        have ih := kmergeAux_sorted fuel ls' hlen hmin.1
        rw [show kmergeAux (fuel + 1) ls = a :: kmergeAux fuel ls' by
          simp [kmergeAux, hk]]
        rw [List.sorted_cons]
        refine ⟨fun b hb => ?_, ih⟩
        have hbm : b ∈ (kmergeAux fuel ls' : Multiset α) := Multiset.mem_coe.2 hb
        rw [kmergeAux_coe fuel ls' hlen] at hbm
        exact hmin.2 b (Multiset.mem_coe.1 hbm)

theorem kmergeAux_single {α : Type*} [LinearOrder α] : ∀ l : List α,
    kmergeAux l.length [l] = l
  | [] => by simp [kmergeAux]
  | x :: xs => by
      rw [List.length_cons,
        show kmergeAux (xs.length + 1) [x :: xs] = x :: kmergeAux xs.length [xs] by
          simp [kmergeAux, kstep_cons_none x xs [] rfl]]
      rw [kmergeAux_single xs]

theorem coe_flatten_eq_sum {α : Type*} : ∀ ls : List (List α),
    (ls.flatten : Multiset α) = (ls.map (fun m => Multiset.ofList m)).sum
  | [] => rfl
  | l :: ls => by
      rw [List.flatten_cons, ← Multiset.coe_add, coe_flatten_eq_sum ls,
        List.map_cons, List.sum_cons]

/-- C2: for a collection of sorted inputs, `kmerge` produces a sorted output
whose multiset of elements is the union of all inputs' elements; zero inputs
yield an empty output, a single input is reproduced exactly, and in
particular `kmerge [[0,2,4],[1,3,5],[6,7]] = [0,1,2,3,4,5,6,7]`. -/
theorem kmerge_correct {α : Type*} [LinearOrder α] (ls : List (List α))
    (l : List α) (hs : ∀ m ∈ ls, m.Sorted (· ≤ ·)) :
    (kmerge ls).Sorted (· ≤ ·) ∧
      (kmerge ls : Multiset α) = (ls.map (fun m => Multiset.ofList m)).sum ∧
      kmerge ([] : List (List α)) = [] ∧
      kmerge [l] = l ∧
      kmerge [[0, 2, 4], [1, 3, 5], [6, 7]] = ([0, 1, 2, 3, 4, 5, 6, 7] : List Nat) := by
  refine ⟨kmergeAux_sorted _ ls le_rfl hs, ?_, rfl, ?_, by decide⟩
  · rw [show (kmerge ls : Multiset α) = (ls.flatten : Multiset α) from
      kmergeAux_coe _ ls le_rfl]
    exact coe_flatten_eq_sum ls
  · show kmergeAux [l].flatten.length [l] = l
    rw [show ([l] : List (List α)).flatten = l ++ [] from rfl, List.append_nil]
    exact kmergeAux_single l

/-- C2 witness at a concrete collection of sorted inputs. -/
theorem kmerge_correct_witness :
    (kmerge [[1, 2], [0, 3]]).Sorted (· ≤ ·) ∧
      (kmerge [[1, 2], [0, 3]] : Multiset Nat) =
        (([[1, 2], [0, 3]] : List (List Nat)).map (fun m => Multiset.ofList m)).sum ∧
      kmerge ([] : List (List Nat)) = [] ∧
      kmerge [[7, 9]] = [7, 9] ∧
      kmerge [[0, 2, 4], [1, 3, 5], [6, 7]] = ([0, 1, 2, 3, 4, 5, 6, 7] : List Nat) :=
  kmerge_correct [[1, 2], [0, 3]] [7, 9] (by decide)

/-- Modelled from the spec: `sorted` (free.rs lines 249–254; the
`Itertools::sorted` method is not part of this excerpt): eagerly materialize
all elements into an ascending-sorted sequence. -/
def sorted {α : Type*} [LinearOrder α] (l : List α) : List α :=
  l.insertionSort (· ≤ ·)

/-- C6: `sorted` is idempotent — applying it to an already `sorted` result
yields the same ascending ordered sequence as applying it once. -/
theorem sorted_idempotent {α : Type*} [LinearOrder α] (l : List α) :
    sorted (sorted l) = sorted l ∧ (sorted l).Sorted (· ≤ ·) :=
  ⟨List.Sorted.insertionSort_eq (List.sorted_insertionSort _ l),
    List.sorted_insertionSort _ l⟩

/-- Modelled from the spec: `max` (free.rs lines 144–149) forwards to the
standard iterator maximum — `none` on an empty sequence, otherwise a fold
keeping the larger element and preferring the later one on ties. -/
def max {α : Type*} [LinearOrder α] : List α → Option α
  | [] => none
  | x :: xs => some (xs.foldl (fun a b => if a ≤ b then b else a) x)

/-- Modelled from the spec: `min` (free.rs lines 160–165) forwards to the
standard iterator minimum — `none` on an empty sequence, otherwise a fold
keeping the smaller element and preferring the earlier one on ties. -/
def min {α : Type*} [LinearOrder α] : List α → Option α
  | [] => none
  | x :: xs => some (xs.foldl (fun a b => if b < a then b else a) x)

theorem foldl_max_spec {α : Type*} [LinearOrder α] : ∀ (xs : List α) (x : α),
    xs.foldl (fun a b => if a ≤ b then b else a) x ∈ x :: xs ∧
    ∀ b ∈ x :: xs, b ≤ xs.foldl (fun a b => if a ≤ b then b else a) x
  | [], x => ⟨List.mem_cons_self x [], by simp⟩
  | y :: ys, x => by
      simp only [List.foldl_cons]
      by_cases hxy : x ≤ y
      · rw [if_pos hxy]
        have ih := foldl_max_spec ys y
        refine ⟨List.mem_cons_of_mem x ih.1, fun b hb => ?_⟩
        rcases List.mem_cons.1 hb with rfl | hb2
        · exact hxy.trans (ih.2 y (List.mem_cons_self y ys))
        · exact ih.2 b hb2
      · rw [if_neg hxy]
        have ih := foldl_max_spec ys x
        have hyx : y ≤ x := le_of_not_le hxy
        refine ⟨?_, fun b hb => ?_⟩
        · rcases List.mem_cons.1 ih.1 with h1 | h1
          · rw [h1]; exact List.mem_cons_self x _
          · exact List.mem_cons_of_mem x (List.mem_cons_of_mem y h1)
        · rcases List.mem_cons.1 hb with rfl | hb2
          · exact ih.2 b (List.mem_cons_self b ys)
          · rcases List.mem_cons.1 hb2 with rfl | hb3
            · exact hyx.trans (ih.2 x (List.mem_cons_self x ys))
            · exact ih.2 b (List.mem_cons_of_mem x hb3)

theorem foldl_min_spec {α : Type*} [LinearOrder α] : ∀ (xs : List α) (x : α),
    xs.foldl (fun a b => if b < a then b else a) x ∈ x :: xs ∧
    ∀ b ∈ x :: xs, xs.foldl (fun a b => if b < a then b else a) x ≤ b
  | [], x => ⟨List.mem_cons_self x [], by simp⟩
  | y :: ys, x => by
      simp only [List.foldl_cons]
      by_cases hyx : y < x
      · rw [if_pos hyx]
        have ih := foldl_min_spec ys y
        refine ⟨?_, fun b hb => ?_⟩
        · rcases List.mem_cons.1 ih.1 with h1 | h1
          · rw [h1]; exact List.mem_cons_of_mem x (List.mem_cons_self y ys)
          · exact List.mem_cons_of_mem x (List.mem_cons_of_mem y h1)
        · rcases List.mem_cons.1 hb with rfl | hb2
          · exact (ih.2 y (List.mem_cons_self y ys)).trans hyx.le
          · exact ih.2 b hb2
      · rw [if_neg hyx]
        have ih := foldl_min_spec ys x
        have hxy : x ≤ y := le_of_not_lt hyx
        refine ⟨?_, fun b hb => ?_⟩
        · rcases List.mem_cons.1 ih.1 with h1 | h1
          · rw [h1]; exact List.mem_cons_self x _
          · exact List.mem_cons_of_mem x (List.mem_cons_of_mem y h1)
        · rcases List.mem_cons.1 hb with rfl | hb2
          · exact ih.2 b (List.mem_cons_self b ys)
          · rcases List.mem_cons.1 hb2 with rfl | hb3
            · exact (ih.2 x (List.mem_cons_self x ys)).trans hxy
            · exact ih.2 b (List.mem_cons_of_mem x hb3)

/-- C7: `max` and `min` on an empty input produce no value (`none`) rather
than failing; on a non-empty input (witnessed by a member `b`) they produce
a member of the input that bounds every member from above, respectively from
below, under the total order. -/
theorem max_min_spec {α : Type*} [LinearOrder α] (l : List α) (b d : α)
    (hb : b ∈ l) :
    Itertools.max ([] : List α) = none ∧
      Itertools.min ([] : List α) = none ∧
      (Itertools.max l).isSome = true ∧
      (Itertools.min l).isSome = true ∧
      (Itertools.max l).getD d ∈ l ∧
      b ≤ (Itertools.max l).getD d ∧
      (Itertools.min l).getD d ∈ l ∧
      (Itertools.min l).getD d ≤ b := by
  cases l with
  | nil => cases hb
  | cons x xs =>
      have hmax := foldl_max_spec xs x
      have hmin := foldl_min_spec xs x
      exact ⟨rfl, rfl, rfl, rfl, hmax.1, hmax.2 b hb, hmin.1, hmin.2 b hb⟩

/-- C7 witness at a concrete non-empty input. -/
theorem max_min_spec_witness :
    Itertools.max ([] : List Nat) = none ∧
      Itertools.min ([] : List Nat) = none ∧
      (Itertools.max [3, 1, 2]).isSome = true ∧
      (Itertools.min [3, 1, 2]).isSome = true ∧
      (Itertools.max [3, 1, 2]).getD 0 ∈ [3, 1, 2] ∧
      1 ≤ (Itertools.max [3, 1, 2]).getD 0 ∧
      (Itertools.min [3, 1, 2]).getD 0 ∈ [3, 1, 2] ∧
      (Itertools.min [3, 1, 2]).getD 0 ≤ 1 :=
  max_min_spec [3, 1, 2] 1 0 (by decide)

/-- Modelled from the spec: `all` (free.rs lines 112–117) forwards to the
standard short-circuiting universal test; the trace version also records, in
order, the elements the predicate is invoked on, stopping at the first
falsifying element. -/
def allTrace {α : Type*} (f : α → Bool) : List α → Bool × List α
  | [] => (true, [])
  | x :: xs =>
      if f x then
        let r := allTrace f xs
        (r.1, x :: r.2)
      else (false, [x])

/-- Result of the universal test: the first component of the trace. -/
def all {α : Type*} (f : α → Bool) (l : List α) : Bool := (allTrace f l).1

/-- Modelled from the spec: `any` (free.rs lines 128–133) forwards to the
standard short-circuiting existential test; the trace version also records,
in order, the elements the predicate is invoked on, stopping at the first
satisfying element. -/
def anyTrace {α : Type*} (f : α → Bool) : List α → Bool × List α
  | [] => (false, [])
  | x :: xs =>
      if f x then (true, [x])
      else
        let r := anyTrace f xs
        (r.1, x :: r.2)

/-- Result of the existential test: the first component of the trace. -/
def any {α : Type*} (f : α → Bool) (l : List α) : Bool := (anyTrace f l).1

theorem allTrace_snd {α : Type*} (f : α → Bool) : ∀ l : List α,
    (allTrace f l).2 = l.takeWhile f ++ (l.dropWhile f).take 1
  | [] => rfl
  | x :: xs => by
      by_cases hfx : f x = true
      · simp [allTrace, hfx, List.takeWhile_cons, List.dropWhile_cons,
          allTrace_snd f xs]
      · simp [allTrace, hfx, List.takeWhile_cons, List.dropWhile_cons]

theorem anyTrace_snd {α : Type*} (f : α → Bool) : ∀ l : List α,
    (anyTrace f l).2 = l.takeWhile (fun x => !f x) ++
      (l.dropWhile (fun x => !f x)).take 1
  | [] => rfl
  | x :: xs => by
      by_cases hfx : f x = true
      · simp [anyTrace, hfx, List.takeWhile_cons, List.dropWhile_cons]
      · simp [anyTrace, hfx, List.takeWhile_cons, List.dropWhile_cons,
          anyTrace_snd f xs]

theorem all_iff {α : Type*} (f : α → Bool) : ∀ l : List α,
    all f l = true ↔ ∀ x ∈ l, f x = true
  | [] => by simp [all, allTrace]
  | x :: xs => by
      by_cases hfx : f x = true
      · simp [all, allTrace, hfx, (all_iff f xs).symm, all]
      · simp [all, allTrace, hfx]

theorem any_iff {α : Type*} (f : α → Bool) : ∀ l : List α,
    any f l = true ↔ ∃ x ∈ l, f x = true
  | [] => by simp [any, anyTrace]
  | x :: xs => by
      by_cases hfx : f x = true
      · simp [any, anyTrace, hfx]
      · simp [any, anyTrace, hfx, (any_iff f xs).symm, any]

/-- C8: `all` holds exactly when the predicate holds of every element and
`any` exactly when it holds of some element; both observe elements in
sequence order, each at most once (the observation trace is a sublist of the
input), and never past the deciding element: the trace is precisely the
prefix up to and including the first falsifying (for `all`), respectively
first satisfying (for `any`), element. -/
theorem all_any_spec {α : Type*} (f : α → Bool) (l : List α) :
    (all f l = true ↔ ∀ x ∈ l, f x = true) ∧
      (any f l = true ↔ ∃ x ∈ l, f x = true) ∧
      (allTrace f l).2 = l.takeWhile f ++ (l.dropWhile f).take 1 ∧
      (anyTrace f l).2 = l.takeWhile (fun x => !f x) ++
        (l.dropWhile (fun x => !f x)).take 1 ∧
      (allTrace f l).2.Sublist l ∧ (anyTrace f l).2.Sublist l := by
  refine ⟨all_iff f l, any_iff f l, allTrace_snd f l, anyTrace_snd f l, ?_, ?_⟩
  · rw [allTrace_snd f l]
    calc (l.takeWhile f ++ (l.dropWhile f).take 1).Sublist
          (l.takeWhile f ++ l.dropWhile f) :=
        (List.Sublist.refl _).append (List.take_sublist 1 _)
      _ = l := List.takeWhile_append_dropWhile f l
  · rw [anyTrace_snd f l]
    calc (l.takeWhile (fun x => !f x) ++
            (l.dropWhile (fun x => !f x)).take 1).Sublist
          (l.takeWhile (fun x => !f x) ++ l.dropWhile (fun x => !f x)) :=
        (List.Sublist.refl _).append (List.take_sublist 1 _)
      _ = l := List.takeWhile_append_dropWhile _ l

/-- Modelled from the spec: `join` (free.rs lines 232–237; the
`Itertools::join` method is not part of this excerpt): render every element
to text and concatenate the renderings, writing the separator before each
element except the first. -/
def join {α : Type*} (render : α → String) (l : List α) (sep : String) : String :=
  match l with
  | [] => ""
  | x :: xs => xs.foldl (fun acc y => acc ++ sep ++ render y) (render x)

theorem join_foldl_append {α : Type*} (render : α → String) (sep : String) :
    ∀ (xs : List α) (a b : String),
    xs.foldl (fun acc y => acc ++ sep ++ render y) (a ++ b) =
      a ++ xs.foldl (fun acc y => acc ++ sep ++ render y) b
  | [], a, b => rfl
  | z :: xs, a, b => by
      simp only [List.foldl_cons]
      rw [String.append_assoc (a ++ b) sep (render z),
        String.append_assoc a b (sep ++ render z),
        join_foldl_append render sep xs a (b ++ (sep ++ render z)),
        String.append_assoc b sep (render z)]

/-- C9: `join` concatenates the textual renderings with the separator placed
between consecutive elements only — empty input yields `""`, a singleton
yields just its rendering, and each further element contributes one
separator; in particular `join [1,2,3] ", " = "1, 2, 3"`. -/
theorem join_spec {α : Type*} (render : α → String) (sep : String) :
    join render ([] : List α) sep = "" ∧
      (∀ x, join render [x] sep = render x) ∧
      (∀ x y xs, join render (x :: y :: xs) sep =
        render x ++ sep ++ join render (y :: xs) sep) ∧
      join (fun n : Nat => toString n) [1, 2, 3] ", " = "1, 2, 3" := by
  refine ⟨rfl, fun x => rfl, fun x y xs => ?_, by decide⟩
  show xs.foldl (fun acc z => acc ++ sep ++ render z)
      (render x ++ sep ++ render y) = _
  exact join_foldl_append render sep xs (render x ++ sep) (render y)

/-- Modelled from the spec: `enumerate` (free.rs lines 26–30) forwards to the
standard running-index pairing, counting from the given start. -/
def enumFrom {α : Type*} : Nat → List α → List (Nat × α)
  | _, [] => []
  | n, x :: xs => (n, x) :: enumFrom (n + 1) xs

/-- Running-index pairing starting at index 0. -/
def enumerate {α : Type*} (l : List α) : List (Nat × α) := enumFrom 0 l

theorem enumFrom_length {α : Type*} : ∀ (l : List α) (n : Nat),
    (enumFrom n l).length = l.length
  | [], _ => rfl
  | x :: xs, n => by
      simp only [enumFrom, List.length_cons, enumFrom_length xs (n + 1)]

theorem enumFrom_getElem {α : Type*} : ∀ (l : List α) (n i : Nat),
    (enumFrom n l)[i]? = l[i]?.map (fun x => (n + i, x))
  | [], n, i => by simp [enumFrom]
  | x :: xs, n, 0 => by simp [enumFrom]
  | x :: xs, n, i + 1 => by
      have ih := enumFrom_getElem xs (n + 1) i
      have hn : n + 1 + i = n + (i + 1) := by omega
      simp only [enumFrom, List.getElem?_cons_succ]
      rw [ih, hn]

/-- C10: `enumerate` yields exactly one pair per input element, in input
order — the pair at position `i` is `(i, l[i])`, so indices start at 0 and
increase by exactly 1 — and the output length equals the input length. -/
theorem enumerate_spec {α : Type*} (l : List α) (i : Nat) :
    (enumerate l).length = l.length ∧
      (enumerate l)[i]? = l[i]?.map (fun x => (i, x)) := by
  refine ⟨enumFrom_length l 0, ?_⟩
  have h := enumFrom_getElem l 0 i
  simpa using h

end Itertools
